import Mathlib

/-!
Verification of the LOC-counting pipeline (`count_loc.py`) and the chat
front end (`tg_loc_bot.py`) of the LOCBot repository, via a shallow
embedding of the Python code into Lean.

Modelling conventions:
* a filesystem path is a `List String` of its segments (`pathlib.Path.parts`);
* the filesystem seen by `Path.rglob` is a `List Entry` in encounter order,
  each entry holding its segments relative to the scan root, an `isFile`
  flag, and `content : Option String` — `some text` is the result of
  `Path.read_text(encoding="utf-8", errors="ignore")` (the best-effort
  decoded text), `none` means the read raised `OSError`;
* Python strings are Lean `String`s; character-level operations are done on
  `String.data`.
-/

namespace LOCBot

/-- ASCII lower-casing of one character, as `str.lower` acts on the ASCII
range (the characters relevant to extension and host comparison). -/
def lowerChar (c : Char) : Char :=
  if 65 ≤ c.toNat ∧ c.toNat ≤ 90 then Char.ofNat (c.toNat + 32) else c

/-- Models Python `str.lower()`. -/
def lowerStr (s : String) : String :=
  String.mk (s.data.map lowerChar)

/-- The whitespace class stripped by Python `str.strip()` (and matched by
the regex class `\s`): ASCII whitespace plus the Unicode space characters. -/
def isPySpace (c : Char) : Bool :=
  c = ' ' || (c.toNat ≥ 9 && c.toNat ≤ 13) || (c.toNat ≥ 28 && c.toNat ≤ 31) ||
  c = '\x85' || c = '\xa0' || c = '\u1680' ||
  (c.toNat ≥ 8192 && c.toNat ≤ 8202) || c = '\u2028' || c = '\u2029' ||
  c = '\u202f' || c = '\u205f' || c = '\u3000'

/-- Models Python `str.strip()` on a character list: drop whitespace from
both ends. -/
def pyStrip (l : List Char) : List Char :=
  ((l.dropWhile isPySpace).reverse.dropWhile isPySpace).reverse

/-- Models Python `str.strip()` on a `String`. -/
def pyStripString (s : String) : String :=
  String.mk (pyStrip s.data)

/-- The line-boundary characters of Python `str.splitlines()`:
newline, carriage return, vertical tab, form feed, the separators
`\x1c`-`\x1e`, next-line `\x85`, and the Unicode line and paragraph
separators (with `\r\n` counting as a single boundary, handled in
`splitlinesAux`). -/
def isLineBreak (c : Char) : Bool :=
  c = '\n' || c = '\r' || c = '\x0b' || c = '\x0c' || c = '\x1c' ||
  c = '\x1d' || c = '\x1e' || c = '\x85' || c = '\u2028' || c = '\u2029'

/-- Worker for `splitlines`: `acc` holds the current line reversed. A final
line without a terminator is emitted; a trailing terminator adds no empty
line, exactly as `str.splitlines()` behaves. -/
def splitlinesAux : List Char → List Char → List (List Char)
  | [], acc => if acc.isEmpty then [] else [acc.reverse]
  | '\r' :: '\n' :: rest, acc => acc.reverse :: splitlinesAux rest []
  | c :: rest, acc =>
    if isLineBreak c then acc.reverse :: splitlinesAux rest []
    else splitlinesAux rest (c :: acc)

/-- Models Python `str.splitlines()`. -/
def splitlines (s : String) : List (List Char) :=
  splitlinesAux s.data []

/-- Helper for `pySuffix`: the tail of the list starting at its LAST dot,
or `none` when no dot occurs. -/
def pySuffixAux : List Char → Option (List Char)
  | [] => none
  | c :: cs =>
    match pySuffixAux cs with
    | some s => some s
    | none => if c = '.' then some (c :: cs) else none

/-- Models `pathlib.PurePath.suffix` on the final path component: the part
of the name from the last dot on, provided that dot is neither the first
nor the last character of the name; otherwise the empty string. -/
def pySuffix (name : String) : String :=
  match pySuffixAux name.data with
  | some s =>
    if s.length < name.data.length && 1 < s.length then String.mk s else ("")
  | none => ("")

/-- The final segment of a path (`Path.name`); files always have one. -/
def lastPart (parts : List String) : String :=
  parts.getLastD ("")

/-- One filesystem object yielded by `root.rglob("*")`, in encounter order:
its path segments relative to the scan root, whether it is a regular file,
and the text `read_text` would produce (`none` = `OSError`). -/
structure Entry where
  parts : List String
  isFile : Bool
  content : Option String
deriving DecidableEq

/-- The three keep/skip tests of `iter_source_files` applied to one entry:
`path.is_file()`, `any(part in ignore_dirs for part in path.parts)` (where
`path.parts` is the scan root's own segments followed by the relative
segments), and `extensions and path.suffix.lower() not in extensions`. -/
def keepsEntry (rootParts extensions ignore_dirs : List String) (e : Entry) : Bool :=
  e.isFile &&
  !((rootParts ++ e.parts).any (fun part => ignore_dirs.contains part)) &&
  (extensions.isEmpty || extensions.contains (lowerStr (pySuffix (lastPart e.parts))))

/-- Models `iter_source_files(root, extensions, ignore_dirs)`: the entries
of the walk that survive all three tests, in encounter order. -/
def iter_source_files (rootParts extensions ignore_dirs : List String)
    (fs : List Entry) : List Entry :=
  fs.filter (keepsEntry rootParts extensions ignore_dirs)

/-- Models `count_non_empty_lines(path)`: `0` when `read_text` raises
`OSError`, otherwise `sum(1 for line in text.splitlines() if line.strip())`. -/
def count_non_empty_lines (content : Option String) : Nat :=
  match content with
  | none => 0
  | some text =>
    (splitlines text).foldl (fun n line => if (pyStrip line).isEmpty then n else n + 1) 0

/-- `ext if ext.startswith(".") else f".{ext}"` — a single-character
`startswith` is a first-character test. -/
def dotPrefixed (ext : String) : String :=
  if ext.data.headD (' ') = '.' then ext else ("." ++ ext)

/-- Models `normalize_extensions(exts)`: prefix each token with a dot when
it does not already start with one (membership is all that matters of the
Python set, so a list models it). -/
def normalize_extensions (exts : List String) : List String :=
  exts.map dotPrefixed

/-- Stable descending insertion by line count: the new element goes after
every element already placed whose count is `≥` its own. -/
def insertDesc (x : Nat × List String) :
    List (Nat × List String) → List (Nat × List String)
  | [] => [x]
  | y :: ys => if y.1 < x.1 then x :: y :: ys else y :: insertDesc x ys

/-- Models `per_file.sort(reverse=True, key=lambda x: x[0])`: Python's sort
is stable, and a stable non-increasing sort by count is uniquely determined,
so this encounter-order insertion computes exactly its result. -/
def sortDesc (l : List (Nat × List String)) : List (Nat × List String) :=
  l.foldl (fun acc x => insertDesc x acc) []

/-- The `(loc, rel)` records accumulated by the loop of `count_project`, in
walker encounter order: one record per yielded file whose count is nonzero,
with `rel = file_path.relative_to(root)` (= the entry's relative segments). -/
def project_records (rootParts extensions ignore_dirs : List String)
    (fs : List Entry) : List (Nat × List String) :=
  (iter_source_files rootParts extensions ignore_dirs fs).filterMap (fun e =>
    let loc := count_non_empty_lines e.content
    if loc = 0 then none else some (loc, e.parts))

/-- Models `count_project(root, extensions, ignore_dirs)`: the records
sorted non-increasing by count (stably), and the running total the loop
accumulated over the same records. -/
def count_project (rootParts extensions ignore_dirs : List String)
    (fs : List Entry) : List (Nat × List String) × Nat :=
  let recs := project_records rootParts extensions ignore_dirs fs
  (sortDesc recs, (recs.map Prod.fst).sum)

/-- The characters `urllib.parse` accepts inside a URL scheme. -/
def isSchemeChar (c : Char) : Bool :=
  c.isAlpha || c.isDigit || c = '+' || c = '-' || c = '.'

/-- Scheme removal of `urllib.parse.urlsplit`: when the text up to the
first colon is a nonempty run of scheme characters starting with an ASCII
letter, drop it together with the colon. -/
def removeScheme (cs : List Char) : List Char :=
  let pre := cs.takeWhile (fun c => c ≠ ':')
  if pre.length < cs.length && !pre.isEmpty &&
      (pre.headD ('a')).isAlpha && pre.all isSchemeChar then
    cs.drop (pre.length + 1)
  else cs

/-- Models the `netloc` and `path` fields of `urllib.parse.urlparse(url)`
for the shapes this program meets: strip the scheme, strip the fragment,
then — when the remainder starts with two slashes — take the authority up
to the next `/`, `?` or `#`, and the path up to the query. -/
def urlparseNetlocPath (url : String) : String × String :=
  let cs := (removeScheme url.data).takeWhile (fun c => c ≠ '#')
  match cs with
  | '/' :: '/' :: rest =>
    let netloc := rest.takeWhile (fun c => c ≠ '/' && c ≠ '?' && c ≠ '#')
    let after := rest.drop netloc.length
    (String.mk netloc, String.mk (after.takeWhile (fun c => c ≠ '?')))
  | _ => (("" : String), String.mk (cs.takeWhile (fun c => c ≠ '?')))

/-- The `RepoRef` of the spec's data model — what `parse_github_repo_url`
returns as a tuple `(owner, repo, branch, subpath)`. -/
structure RepoRef where
  owner : String
  repo : String
  branch : Option String
  subpath : Option String
deriving DecidableEq

/-- Python `str.split(sep)` with a one-character separator: split at every
occurrence, keeping empty pieces (`"".split` gives one empty piece). -/
def splitSepAux (sep : Char) : List Char → List Char → List (List Char)
  | [], acc => [acc.reverse]
  | c :: rest, acc =>
    if c = sep then acc.reverse :: splitSepAux sep rest []
    else splitSepAux sep rest (c :: acc)

/-- Python `subpath.split("/")`. -/
def splitSlash (s : String) : List String :=
  (splitSepAux ('/') s.data []).map String.mk

/-- The nonempty segments of a URL path: `parsed.path.strip("/").split("/")`
with the empty parts filtered out, which equals splitting on `/` and
dropping every empty token. -/
def pathSegments (path : String) : List String :=
  (splitSlash path).filter (fun p => p ≠ "")

/-- Models `str.removesuffix(".git")`: drop the last four characters when
they are exactly `.git`. -/
def removesuffixGit (s : String) : String :=
  if s.data.reverse.take 4 = [('t'), ('i'), ('g'), ('.')] then
    String.mk (s.data.take (s.data.length - 4))
  else s

/-- Python `"/".join(parts)`. -/
def joinSlash : List String → String
  | [] => ("")
  | [s] => s
  | s :: rest => s ++ ("/") ++ joinSlash rest

/-- The branch of `parse_github_repo_url`: `parts[3]` exactly when
`len(parts) >= 4 and parts[2] == "tree"`, i.e. when the segments after
owner and repo start `tree :: b :: _`. -/
def branchOf : List String → Option String
  | "tree" :: b :: _ => some b
  | _ => none

/-- The subpath of `parse_github_repo_url`: `"/".join(parts[4:])` exactly
when a branch was recognized and `len(parts) > 4`. -/
def subpathOf : List String → Option String
  | "tree" :: _ :: rest2 => if rest2.isEmpty then none else some (joinSlash rest2)
  | _ => none

/-- Models `parse_github_repo_url(url)`: reject any authority other than
`github.com`/`www.github.com` (compared lower-cased), reject paths with
fewer than two segments, take owner and repository (with a trailing `.git`
stripped) from the first two segments, and read `tree/<branch>/<subpath>`
from the remaining segments. -/
def parse_github_repo_url (url : String) : Except String RepoRef :=
  if !(lowerStr (urlparseNetlocPath url).1 = "github.com" ||
       lowerStr (urlparseNetlocPath url).1 = "www.github.com") then
    .error ("Supported only github.com repository links.")
  else
    match pathSegments (urlparseNetlocPath url).2 with
    | p0 :: p1 :: rest => .ok ⟨p0, removesuffixGit p1, branchOf rest, subpathOf rest⟩
    | _ => .error ("Invalid GitHub repository URL.")

/-- The root resolution at the end of `download_and_extract_repo`:
`subdirs[0] if len(subdirs) == 1 else extract_dir`. -/
def effective_root (extract_dir : List String) (subdirs : List (List String)) :
    List String :=
  match subdirs with
  | [d] => d
  | _ => extract_dir

/-- Models the tail of `download_and_extract_repo` after extraction
succeeded: `extract_dir` is the scratch directory, `subdirs` its immediate
subdirectories, `subpath` the segment string parsed from the URL, and
`exists_` the extracted filesystem's existence test. When a subpath is
present it is joined onto the effective root and must exist, else the
function raises `ValueError(f"Path not found in repository: <subpath>")`. -/
def resolve_repo_root (extract_dir : List String) (subdirs : List (List String))
    (subpath : Option String) (exists_ : List String → Bool) :
    Except String (List String) :=
  let root := effective_root extract_dir subdirs
  match subpath with
  | some sp =>
    let target := root ++ splitSlash sp
    if exists_ target then .ok target
    else .error ("Path not found in repository: " ++ sp)
  | none => .ok root

/-- Python `list[:n]` slicing: the first `n` elements for nonnegative `n`,
and all but the last `-n` elements for negative `n`. -/
def pySliceTo (n : Int) (l : List (Nat × String)) : List (Nat × String) :=
  if 0 ≤ n then l.take n.toNat else l.take (l.length - (-n).toNat)

/-- The listing line `f"{loc:>8}  {rel}"`: the count right-aligned to a
minimum width of eight, two spaces, the relative path. -/
def fmtLine (loc : Nat) (rel : String) : String :=
  let s := toString loc
  String.mk (List.replicate (8 - s.length) ' ') ++ s ++ ("  ") ++ rel

/-- Models `_render_result(url, per_file, total, top)` of the bot (the CLI
prints the same listing shape), as the list of the report's lines. -/
def render_result (url : String) (per_file : List (Nat × String)) (total : Nat)
    (top : Int) : List String :=
  [("Репозиторій: " ++ url),
   ("Файлів пораховано: " ++ toString per_file.length),
   ("Загалом non-empty рядків: " ++ toString total),
   (""),
   ("Топ " ++ toString (min top (per_file.length : Int)) ++ " файлів:")] ++
  (pySliceTo top per_file).map (fun r => fmtLine r.1 r.2)

/-- Keyboard button label `BTN_COUNT`. -/
def BTN_COUNT : String := "Порахувати LOC"

/-- Keyboard button label `BTN_TOP_10`. -/
def BTN_TOP_10 : String := "Топ 10"

/-- Keyboard button label `BTN_TOP_20`. -/
def BTN_TOP_20 : String := "Топ 20"

/-- Keyboard button label `BTN_HELP`. -/
def BTN_HELP : String := "Допомога"

/-- The per-user session data of `context.user_data`: the stored `"top"`
preference (`none` when the key is absent) and the stored `"last_url"`. -/
structure UserData where
  top : Option Nat
  lastUrl : Option String
deriving DecidableEq

/-- Models `_get_user_top`: `int(context.user_data.get("top", 10))`. -/
def get_user_top (s : UserData) : Nat :=
  s.top.getD 10

/-- Models `_set_user_top`: `context.user_data["top"] = top`. -/
def set_user_top (s : UserData) (top : Nat) : UserData :=
  { s with top := some top }

/-- Case-insensitive prefix test over character lists (the regex engine
compares the literal pattern characters under `re.IGNORECASE`). -/
def isCIPrefixOf : List Char → List Char → Bool
  | [], _ => true
  | _ :: _, [] => false
  | p :: ps, c :: cs => lowerChar c = lowerChar p && isCIPrefixOf ps cs

/-- Whether `URL_RE = re.compile(r"https?://[^\s]+", re.IGNORECASE)`
matches at this position: one of the two scheme alternatives literally
(case-insensitively), then at least one non-whitespace character — the
`[^\s]+` of the pattern. -/
def matchesUrlAt (cs : List Char) : Bool :=
  (isCIPrefixOf ("http://").data cs && !((cs.drop 7).takeWhile (fun c => !isPySpace c)).isEmpty) ||
  (isCIPrefixOf ("https://").data cs && !((cs.drop 8).takeWhile (fun c => !isPySpace c)).isEmpty)

/-- Models `URL_RE.search`: scan left to right for the first position where
the pattern matches; the greedy `[^\s]+` then extends the match over every
following non-whitespace character, so the whole match is the maximal
whitespace-free run from the match position. -/
def url_search : List Char → Option (List Char)
  | [] => none
  | c :: rest =>
    if matchesUrlAt (c :: rest) then
      some ((c :: rest).takeWhile (fun ch => !isPySpace ch))
    else url_search rest

/-- Models `_extract_url(text)`: `match.group(0)` of the first `URL_RE`
match, or `None`. -/
def extract_url (text : String) : Option String :=
  (url_search text.data).map String.mk

/-- Models `handle_button_text(update, context, text)`: the new session
data, the replies sent, and the returned handled-flag. -/
def handle_button_text (s : UserData) (text : String) :
    UserData × List String × Bool :=
  if text = BTN_COUNT then (s, [("Встав GitHub URL репозиторію.")], true)
  else if text = BTN_TOP_10 then
    (set_user_top s 10, [("Встановлено: показувати Топ 10 файлів.")], true)
  else if text = BTN_TOP_20 then
    (set_user_top s 20, [("Встановлено: показувати Топ 20 файлів.")], true)
  else if text = BTN_HELP then (s, [("help")], true)
  else (s, [], false)

/-- Models `handle_message(update, context)` up to the hand-off to the
counting pipeline: the new session data, the immediate replies, and
`some (url, top)` exactly when `_run_count(update, context, url, top)` is
invoked (which stores the URL in `last_url` before counting). -/
def handle_message (s : UserData) (text0 : String) :
    UserData × List String × Option (String × Nat) :=
  let text := pyStripString text0
  if text = "" then (s, [], none)
  else
    match handle_button_text s text with
    | (s1, replies, true) => (s1, replies, none)
    | (_, _, false) =>
      match extract_url text with
      | none => (s, [("Не знайшов посилання.")], none)
      | some url =>
        ({ s with lastUrl := some url }, [("Рахую рядки коду, зачекай...")],
         some (url, get_user_top s))

/-- Modelled from the spec (§4.3 wording, for comparison with
`splitlines`): splitting on UNIVERSAL NEWLINE boundaries only, that is
`\r\n`, `\r` and `\n`, with the same convention that a trailing terminator
adds no empty line. -/
def splitUniversalAux : List Char → List Char → List (List Char)
  | [], acc => if acc.isEmpty then [] else [acc.reverse]
  | '\r' :: '\n' :: rest, acc => acc.reverse :: splitUniversalAux rest []
  | '\r' :: rest, acc => acc.reverse :: splitUniversalAux rest []
  | '\n' :: rest, acc => acc.reverse :: splitUniversalAux rest []
  | c :: rest, acc => splitUniversalAux rest (c :: acc)

/-- Modelled from the spec: `splitUniversalAux` started with an empty
accumulator. -/
def splitUniversal (s : String) : List (List Char) :=
  splitUniversalAux s.data []

/-- Modelled from the claim's wording (for comparison with `matchesUrlAt`):
"starts with http:// or https:// (case-insensitive)" — with no requirement
of any character after the scheme separator. -/
def startsHttpCI (cs : List Char) : Bool :=
  isCIPrefixOf ("http://").data cs || isCIPrefixOf ("https://").data cs

theorem insertDesc_perm (x : Nat × List String) (l : List (Nat × List String)) :
    List.Perm (insertDesc x l) (x :: l) := by
  induction l with
  | nil => simp [insertDesc]
  | cons y ys ih =>
    unfold insertDesc
    split
    · exact List.Perm.refl _
    · exact (ih.cons y).trans (List.Perm.swap x y ys)

theorem mem_insertDesc {z x : Nat × List String} {l : List (Nat × List String)} :
    z ∈ insertDesc x l ↔ z = x ∨ z ∈ l := by
  rw [(insertDesc_perm x l).mem_iff, List.mem_cons]

theorem insertDesc_pairwise (x : Nat × List String) {l : List (Nat × List String)}
    (h : l.Pairwise (fun a b => b.1 ≤ a.1)) :
    (insertDesc x l).Pairwise (fun a b => b.1 ≤ a.1) := by
  induction l with
  | nil => simp [insertDesc]
  | cons y ys ih =>
    rcases List.pairwise_cons.mp h with ⟨hy, hys⟩
    unfold insertDesc
    split
    · next hlt =>
      refine List.pairwise_cons.mpr ⟨?_, h⟩
      intro z hz
      rcases List.mem_cons.mp hz with rfl | hz
      · exact Nat.le_of_lt hlt
      · exact Nat.le_trans (hy z hz) (Nat.le_of_lt hlt)
    · next hge =>
      refine List.pairwise_cons.mpr ⟨?_, ih hys⟩
      intro z hz
      rcases mem_insertDesc.mp hz with rfl | hz
      · exact Nat.le_of_not_lt hge
      · exact hy z hz

theorem insertDesc_filter (x : Nat × List String) {l : List (Nat × List String)}
    (h : l.Pairwise (fun a b => b.1 ≤ a.1)) (c : Nat) :
    (insertDesc x l).filter (fun p => p.1 == c) =
      l.filter (fun p => p.1 == c) ++ if x.1 == c then [x] else [] := by
  induction l with
  | nil => simp [insertDesc]; split <;> simp_all
  | cons y ys ih =>
    rcases List.pairwise_cons.mp h with ⟨hy, hys⟩
    unfold insertDesc
    split
    · next hlt =>
      by_cases hx : x.1 = c
      · have hnil : (y :: ys).filter (fun p => p.1 == c) = [] := by
          refine List.filter_eq_nil_iff.mpr ?_
          intro z hz
          have hzle : z.1 ≤ y.1 := by
            rcases List.mem_cons.mp hz with rfl | hz
            · exact Nat.le_refl _
            · exact hy z hz
          have : z.1 < c := Nat.lt_of_le_of_lt hzle (hx ▸ hlt)
          simp [Nat.ne_of_lt this]
        rw [List.filter_cons_of_pos (by simp [hx]), hnil]
        simp [hx]
      · rw [List.filter_cons_of_neg (by simp [hx])]
        simp [hx]
    · next hge =>
      by_cases hyc : y.1 = c
      · rw [List.filter_cons_of_pos (by simp [hyc]), List.filter_cons_of_pos (by simp [hyc]),
          ih hys]
        simp
      · rw [List.filter_cons_of_neg (by simp [hyc]), List.filter_cons_of_neg (by simp [hyc]),
          ih hys]

theorem sortDesc_foldl_props (l acc : List (Nat × List String))
    (h : acc.Pairwise (fun a b => b.1 ≤ a.1)) :
    (l.foldl (fun a x => insertDesc x a) acc).Pairwise (fun a b => b.1 ≤ a.1) ∧
    List.Perm (l.foldl (fun a x => insertDesc x a) acc) (acc ++ l) ∧
    ∀ c, (l.foldl (fun a x => insertDesc x a) acc).filter (fun p => p.1 == c) =
      acc.filter (fun p => p.1 == c) ++ l.filter (fun p => p.1 == c) := by
  induction l generalizing acc with
  | nil =>
    refine ⟨h, ?_, fun c => by simp⟩
    simp only [List.foldl_nil]
    exact (List.Perm.refl _).trans (by simp)
  | cons x xs ih =>
    have h1 : (insertDesc x acc).Pairwise (fun a b => b.1 ≤ a.1) := insertDesc_pairwise x h
    rcases ih (insertDesc x acc) h1 with ⟨hp, hperm, hfilter⟩
    simp only [List.foldl_cons]
    refine ⟨hp, ?_, ?_⟩
    · have hmid : List.Perm (insertDesc x acc ++ xs) (acc ++ x :: xs) :=
        ((insertDesc_perm x acc).append_right xs).trans List.perm_middle.symm
      exact hperm.trans hmid
    · intro c
      rw [hfilter c, insertDesc_filter x h c]
      by_cases hx : x.1 = c
      · simp [hx]
      · simp [hx]

theorem sortDesc_pairwise (l : List (Nat × List String)) :
    (sortDesc l).Pairwise (fun a b => b.1 ≤ a.1) :=
  (sortDesc_foldl_props l [] (List.Pairwise.nil)).1

theorem sortDesc_perm (l : List (Nat × List String)) : List.Perm (sortDesc l) l := by
  simpa using (sortDesc_foldl_props l [] (List.Pairwise.nil)).2.1

theorem sortDesc_filter (l : List (Nat × List String)) (c : Nat) :
    (sortDesc l).filter (fun p => p.1 == c) = l.filter (fun p => p.1 == c) := by
  simpa using (sortDesc_foldl_props l [] (List.Pairwise.nil)).2.2 c

/-- Claim C1: for every scan root and configuration, the result of
`count_project` satisfies `total = sum of the counts of the files listing`,
the listing is sorted non-increasing by count, and among entries of equal
count the walker's encounter order (`project_records`) is preserved —
Python's `sort` is stable. -/
theorem count_project_sorted_stable_total (root exts ign : List String)
    (fs : List Entry) :
    (count_project root exts ign fs).2 =
      ((count_project root exts ign fs).1.map Prod.fst).sum ∧
    (count_project root exts ign fs).1.Pairwise (fun a b => b.1 ≤ a.1) ∧
    ∀ c, (count_project root exts ign fs).1.filter (fun p => p.1 == c) =
      (project_records root exts ign fs).filter (fun p => p.1 == c) := by
  refine ⟨?_, sortDesc_pairwise _, fun c => sortDesc_filter _ c⟩
  exact (((sortDesc_perm (project_records root exts ign fs)).map Prod.fst).sum_eq).symm

theorem toNat_charOfNat_of_valid {n : Nat} (h : n.isValidChar) :
    (Char.ofNat n).toNat = n := by
  rw [Char.ofNat, dif_pos h]
  rfl

theorem lowerChar_idem (c : Char) : lowerChar (lowerChar c) = lowerChar c := by
  unfold lowerChar
  by_cases h : 65 ≤ c.toNat ∧ c.toNat ≤ 90
  · rw [if_pos h]
    have hv : (c.toNat + 32).isValidChar := Or.inl (by omega)
    have ht : (Char.ofNat (c.toNat + 32)).toNat = c.toNat + 32 :=
      toNat_charOfNat_of_valid hv
    rw [if_neg (by rw [ht]; omega)]
  · rw [if_neg h, if_neg h]

theorem lowerStr_idem (s : String) : lowerStr (lowerStr s) = lowerStr s := by
  unfold lowerStr
  simp only [List.map_map]
  congr 1
  exact List.map_congr_left (fun c _ => lowerChar_idem c)

theorem records_sum (l : List Entry) :
    ((l.filterMap (fun e =>
      let loc := count_non_empty_lines e.content
      if loc = 0 then none else some (loc, e.parts))).map Prod.fst).sum =
    (l.map (fun e => count_non_empty_lines e.content)).sum := by
  induction l with
  | nil => rfl
  | cons e es ih =>
    by_cases h : count_non_empty_lines e.content = 0
    · simp [List.filterMap_cons, h, ih]
    · simp [List.filterMap_cons, h, ih]

/-- Claim C4: reading failure makes `count_non_empty_lines` return `0`
rather than an error, and every zero-count file is excluded from the
result entirely: every listed record has a positive count, and the total
equals the sum of the per-file counts over ALL walked files (so zero-count
files contribute nothing to it). -/
theorem zero_count_files_excluded (root exts ign : List String) (fs : List Entry) :
    count_non_empty_lines none = 0 ∧
    (∀ r ∈ (count_project root exts ign fs).1, 0 < r.1) ∧
    (count_project root exts ign fs).2 =
      ((iter_source_files root exts ign fs).map
        (fun e => count_non_empty_lines e.content)).sum := by
  refine ⟨rfl, ?_, records_sum _⟩
  intro r hr
  have hr2 : r ∈ project_records root exts ign fs :=
    (sortDesc_perm _).mem_iff.mp hr
  rcases List.mem_filterMap.mp hr2 with ⟨e, _, he⟩
  simp only at he
  by_cases h : count_non_empty_lines e.content = 0
  · simp [h] at he
  · rw [if_neg h] at he
    have hre : (count_non_empty_lines e.content, e.parts) = r := Option.some.inj he
    rw [← hre]
    exact Nat.pos_of_ne_zero h

/-- Witness for `zero_count_files_excluded` at a one-file scan. -/
theorem zero_count_files_excluded_witness :
    (1, [("a.py" : String)]) ∈
      (count_project [] [] [] [⟨[("a.py")], true, some ("x")⟩]).1 ∧
    0 < (1 : Nat) := by
  refine ⟨by decide, ?_⟩
  exact (zero_count_files_excluded [] [] [] [⟨[("a.py")], true, some ("x")⟩]).2.1
    (1, [("a.py")]) (by decide)

theorem count_fold_eq_filter_length (L : List (List Char)) (n : Nat) :
    L.foldl (fun n line => if (pyStrip line).isEmpty then n else n + 1) n =
      n + (L.filter (fun line => !(pyStrip line).isEmpty)).length := by
  induction L generalizing n with
  | nil => simp
  | cons line rest ih =>
    simp only [List.foldl_cons, List.filter_cons]
    by_cases h : (pyStrip line).isEmpty = true
    · rw [if_pos h, if_neg (by simp [h]), ih]
    · rw [if_neg h, if_pos (by simp [h]), ih]
      simp only [List.length_cons]
      omega

/-- Claim C5, counterexample: on the text `a<form feed>b` the Line Counter
returns 2 — `str.splitlines` treats the form feed as a line boundary — while
splitting on UNIVERSAL newline boundaries (`\n`, `\r`, `\r\n`, the term's
meaning in Python) yields the single non-blank line `a<form feed>b`, so the
claimed count would be 1. The splitlines boundary set is a strict superset
of the universal newlines. -/
theorem count_lines_not_universal_cex :
    count_non_empty_lines (some ("a\x0cb")) = 2 ∧
    ((splitUniversal ("a\x0cb")).filter (fun line => !(pyStrip line).isEmpty)).length = 1 := by
  constructor
  · rfl
  · rfl

/-- Claim C5 as amended: the Line Counter's result equals the number of
lines, after splitting the decoded text on the `str.splitlines` boundary
set (universal newlines plus vertical tab, form feed, the separator
characters 0x1c-0x1e, next-line and the Unicode line/paragraph separators),
whose stripped content is non-empty; in particular a text all of whose
lines are whitespace-only yields count 0. -/
theorem count_non_empty_lines_spec (t : String) :
    count_non_empty_lines (some t) =
      ((splitlines t).filter (fun line => !(pyStrip line).isEmpty)).length ∧
    ((∀ line ∈ splitlines t, pyStrip line = []) → count_non_empty_lines (some t) = 0) := by
  have hfold : count_non_empty_lines (some t) =
      ((splitlines t).filter (fun line => !(pyStrip line).isEmpty)).length := by
    show (splitlines t).foldl _ 0 = _
    rw [count_fold_eq_filter_length]
    omega
  refine ⟨hfold, fun hall => ?_⟩
  rw [hfold]
  have : (splitlines t).filter (fun line => !(pyStrip line).isEmpty) = [] := by
    refine List.filter_eq_nil_iff.mpr ?_
    intro line hline
    simp [hall line hline]
  rw [this]
  rfl

/-- Witness for `count_non_empty_lines_spec` at a whitespace-only file. -/
theorem count_non_empty_lines_spec_witness :
    (∀ line ∈ splitlines ("  \n\t \n"), pyStrip line = []) ∧
    count_non_empty_lines (some ("  \n\t \n")) = 0 := by
  refine ⟨by decide, ?_⟩
  exact (count_non_empty_lines_spec ("  \n\t \n")).2 (by decide)

/-- Claim C2, counterexample: with scan root `build`, ignore set
`{"build"}` and a single regular file `a.py` under the root, the walker
yields nothing — the root's own path segment `build` is in `path.parts`
and triggers the skip — although no path segment from the root downward
(here only `a.py`) matches an ignored name. So "skipped iff some segment
FROM THE ROOT DOWNWARD matches" fails: the code also tests the root's own
segments. -/
theorem iter_ignores_root_own_segment_cex :
    iter_source_files [("build")] [] [("build")] [⟨[("a.py")], true, some ("x")⟩] = [] ∧
    ∀ part ∈ ([("a.py")] : List String), part ∉ ([("build")] : List String) := by
  constructor
  · rfl
  · decide

/-- Claim C2 as amended: the walker skips a file iff some segment of the
file's FULL path — the scan root's own segments followed by the segments
below the root — exactly matches a name in `ignore_dirs`; consequently no
yielded entry has an ignored segment anywhere, in particular not in its
relative path. -/
theorem iter_source_files_ignore_spec (root exts ign : List String) (fs : List Entry) :
    (∀ e ∈ iter_source_files root exts ign fs,
      (root ++ e.parts).all (fun part => !(ign.contains part)) = true) ∧
    (∀ e ∈ iter_source_files root exts ign fs,
      e.parts.all (fun part => !(ign.contains part)) = true) ∧
    (∀ e ∈ fs, e.isFile = true →
      (root ++ e.parts).all (fun part => !(ign.contains part)) = true →
      (exts.isEmpty || exts.contains (lowerStr (pySuffix (lastPart e.parts)))) = true →
      e ∈ iter_source_files root exts ign fs) := by
  have hmem : ∀ e, e ∈ iter_source_files root exts ign fs ↔
      e ∈ fs ∧ keepsEntry root exts ign e = true := by
    intro e
    exact List.mem_filter
  have hfull : ∀ e ∈ iter_source_files root exts ign fs,
      (root ++ e.parts).all (fun part => !(ign.contains part)) = true := by
    intro e he
    have hk := ((hmem e).mp he).2
    unfold keepsEntry at hk
    simp only [Bool.and_eq_true] at hk
    have hnoig := hk.1.2
    have hany : ∀ part ∈ root ++ e.parts, ign.contains part = false := by
      have hfalse : ((root ++ e.parts).any (fun part => ign.contains part)) = false := by
        simpa using hnoig
      intro part hpart
      rw [List.any_eq_false] at hfalse
      simpa using hfalse part hpart
    simp only [List.all_eq_true, Bool.not_eq_true']
    intro part hpart
    exact hany part hpart
  refine ⟨hfull, ?_, ?_⟩
  · intro e he
    have h1 := hfull e he
    simp only [List.all_eq_true] at h1 ⊢
    intro part hpart
    exact h1 part (List.mem_append_right root hpart)
  · intro e he hfile hig hext
    refine (hmem e).mpr ⟨he, ?_⟩
    unfold keepsEntry
    simp only [Bool.and_eq_true]
    refine ⟨⟨hfile, ?_⟩, hext⟩
    simp only [Bool.not_eq_true', List.any_eq_false]
    intro part hpart
    simp only [List.all_eq_true, Bool.not_eq_true'] at hig
    simpa using hig part hpart

/-- Witness for `iter_source_files_ignore_spec`: a clean file is yielded. -/
theorem iter_source_files_ignore_spec_witness :
    (⟨[("a.py")], true, some ("x")⟩ : Entry) ∈
      iter_source_files [("proj")] [] [("node_modules")]
        [⟨[("a.py")], true, some ("x")⟩] := by
  exact (iter_source_files_ignore_spec [("proj")] [] [("node_modules")]
      [⟨[("a.py")], true, some ("x")⟩]).2.2
    ⟨[("a.py")], true, some ("x")⟩ (by decide) (by decide) (by decide) (by decide)

theorem mem_iter_source_files {root exts ign : List String} {fs : List Entry} {e : Entry} :
    e ∈ iter_source_files root exts ign fs ↔ e ∈ fs ∧ keepsEntry root exts ign e = true :=
  List.mem_filter

theorem keepsEntry_of_checks {root exts ign : List String} {e : Entry}
    (hfile : e.isFile = true)
    (hig : (root ++ e.parts).all (fun part => !(ign.contains part)) = true)
    (hext : (exts.isEmpty || exts.contains (lowerStr (pySuffix (lastPart e.parts)))) = true) :
    keepsEntry root exts ign e = true := by
  unfold keepsEntry
  simp only [Bool.and_eq_true]
  refine ⟨⟨hfile, ?_⟩, hext⟩
  simp only [Bool.not_eq_true', List.any_eq_false]
  intro part hpart
  simp only [List.all_eq_true, Bool.not_eq_true'] at hig
  simpa using hig part hpart

/-- Claim C3: under a non-empty normalized extension filter, every yielded
file's suffix is a case-insensitive member of the filter set; normalization
dot-prefixes each raw token not already dot-prefixed; and with an empty
filter set the extension test rejects nothing. -/
theorem iter_extension_filter_ci (root ign raw : List String) (fs : List Entry) :
    (∀ e ∈ iter_source_files root (normalize_extensions raw) ign fs,
      normalize_extensions raw ≠ [] →
      ∃ t ∈ normalize_extensions raw,
        lowerStr (pySuffix (lastPart e.parts)) = lowerStr t) ∧
    (∀ t ∈ normalize_extensions raw,
      (∃ u ∈ raw, t = dotPrefixed u) ∧ t.data.headD (' ') = '.') ∧
    (∀ e ∈ fs, e.isFile = true →
      (root ++ e.parts).all (fun part => !(ign.contains part)) = true →
      e ∈ iter_source_files root [] ign fs) := by
  refine ⟨?_, ?_, ?_⟩
  · intro e he hne
    have hk := (mem_iter_source_files.mp he).2
    unfold keepsEntry at hk
    simp only [Bool.and_eq_true] at hk
    have hext := hk.2
    have hnot : (normalize_extensions raw).isEmpty = false := by
      cases hh : normalize_extensions raw with
      | nil => exact absurd hh hne
      | cons a as => simp [hh]
    rw [hnot, Bool.false_or] at hext
    have hmem : lowerStr (pySuffix (lastPart e.parts)) ∈ normalize_extensions raw := by
      simpa using hext
    exact ⟨_, hmem, (lowerStr_idem _).symm⟩
  · intro t ht
    rcases List.mem_map.mp ht with ⟨u, hu, hut⟩
    refine ⟨⟨u, hu, hut.symm⟩, ?_⟩
    rw [← hut]
    unfold dotPrefixed
    by_cases hh : u.data.headD (' ') = '.'
    · rw [if_pos hh]
      exact hh
    · rw [if_neg hh]
      obtain ⟨l⟩ := u
      rfl
  · intro e he hfile hig
    exact mem_iter_source_files.mpr ⟨he, keepsEntry_of_checks hfile hig (by simp)⟩

/-- Witness for `iter_extension_filter_ci`: an upper-case `.PY` file passes
the normalized lower-case filter `{".py"}` and its suffix is a
case-insensitive member of it. -/
theorem iter_extension_filter_ci_witness :
    (⟨[("a.PY")], true, some ("x")⟩ : Entry) ∈
      iter_source_files [] (normalize_extensions [("py")]) []
        [⟨[("a.PY")], true, some ("x")⟩] ∧
    ∃ t ∈ normalize_extensions [("py")],
      lowerStr (pySuffix (lastPart [("a.PY")])) = lowerStr t := by
  have hiter : iter_source_files [] (normalize_extensions [("py")]) []
      [⟨[("a.PY")], true, some ("x")⟩] = [⟨[("a.PY")], true, some ("x")⟩] := by decide
  have hmem : (⟨[("a.PY")], true, some ("x")⟩ : Entry) ∈
      iter_source_files [] (normalize_extensions [("py")]) []
        [⟨[("a.PY")], true, some ("x")⟩] := by
    rw [hiter]
    exact List.mem_singleton.mpr rfl
  refine ⟨hmem, ?_⟩
  exact (iter_extension_filter_ci [] [] [("py")] [⟨[("a.PY")], true, some ("x")⟩]).1
    ⟨[("a.PY")], true, some ("x")⟩ hmem (by decide)

/-- Claim C6: the URL parser fails with the unsupported-host error when the
authority (lower-cased) is neither `github.com` nor its `www` alias; fails
with the invalid-URL error when the path has fewer than two segments; and
otherwise returns owner = first segment, repo = second segment with a
trailing `.git` stripped, branch = the fourth segment exactly when the
third is the literal `tree`, and subpath = the slash-joined remaining
segments when any remain; the spec's `/tree/dev/sub/dir` example parses to
branch `dev` and subpath `sub/dir`. -/
theorem parse_github_repo_url_cases (url : String) :
    (¬(lowerStr (urlparseNetlocPath url).1 = "github.com" ∨
       lowerStr (urlparseNetlocPath url).1 = "www.github.com") →
      parse_github_repo_url url = .error ("Supported only github.com repository links.")) ∧
    ((lowerStr (urlparseNetlocPath url).1 = "github.com" ∨
      lowerStr (urlparseNetlocPath url).1 = "www.github.com") →
      (pathSegments (urlparseNetlocPath url).2).length < 2 →
      parse_github_repo_url url = .error ("Invalid GitHub repository URL.")) ∧
    (∀ p0 p1 rest,
      (lowerStr (urlparseNetlocPath url).1 = "github.com" ∨
       lowerStr (urlparseNetlocPath url).1 = "www.github.com") →
      pathSegments (urlparseNetlocPath url).2 = p0 :: p1 :: rest →
      parse_github_repo_url url =
        .ok ⟨p0, removesuffixGit p1, branchOf rest, subpathOf rest⟩) ∧
    parse_github_repo_url ("https://github.com/acme/widgets/tree/dev/sub/dir") =
      .ok ⟨("acme"), ("widgets"), some ("dev"), some ("sub/dir")⟩ := by
  have hcond : ∀ h : (lowerStr (urlparseNetlocPath url).1 = "github.com" ∨
      lowerStr (urlparseNetlocPath url).1 = "www.github.com"),
      (!(lowerStr (urlparseNetlocPath url).1 = "github.com" ||
         lowerStr (urlparseNetlocPath url).1 = "www.github.com")) = false := by
    intro h
    rcases h with h | h <;> simp [h]
  refine ⟨?_, ?_, ?_, ?_⟩
  · intro h
    unfold parse_github_repo_url
    rw [if_pos]
    simp only [Bool.not_eq_true', Bool.or_eq_false_iff, decide_eq_false_iff_not]
    exact ⟨fun ha => h (Or.inl ha), fun hb => h (Or.inr hb)⟩
  · intro h hlen
    unfold parse_github_repo_url
    rw [if_neg (by simp [hcond h])]
    cases hseg : pathSegments (urlparseNetlocPath url).2 with
    | nil => rfl
    | cons a as =>
      cases as with
      | nil => rfl
      | cons b bs =>
        rw [hseg] at hlen
        simp only [List.length_cons] at hlen
        omega
  · intro p0 p1 rest h hseg
    unfold parse_github_repo_url
    rw [if_neg (by simp [hcond h]), hseg]
  · rfl

/-- Witness for `parse_github_repo_url_cases`: a `gitlab.com` URL is
rejected with the unsupported-host error. -/
theorem parse_github_repo_url_cases_witness :
    parse_github_repo_url ("https://gitlab.com/acme/widgets") =
      .error ("Supported only github.com repository links.") := by
  exact (parse_github_repo_url_cases ("https://gitlab.com/acme/widgets")).1 (by decide)

/-- Claim C7: after a successful extraction the effective repository root
is the single subdirectory of the scratch directory when exactly one
exists and the scratch directory itself otherwise; a parsed subpath is
joined onto that root, and a missing joined path fails with the
path-not-found error naming the subpath. -/
theorem resolve_repo_root_spec (extract_dir : List String)
    (subdirs : List (List String)) (subpath : Option String)
    (exists_ : List String → Bool) :
    (∀ d, subdirs = [d] → effective_root extract_dir subdirs = d) ∧
    (subdirs.length ≠ 1 → effective_root extract_dir subdirs = extract_dir) ∧
    (subpath = none → resolve_repo_root extract_dir subdirs subpath exists_ =
      .ok (effective_root extract_dir subdirs)) ∧
    (∀ sp, subpath = some sp →
      (exists_ (effective_root extract_dir subdirs ++ splitSlash sp) = true →
        resolve_repo_root extract_dir subdirs subpath exists_ =
          .ok (effective_root extract_dir subdirs ++ splitSlash sp)) ∧
      (exists_ (effective_root extract_dir subdirs ++ splitSlash sp) = false →
        resolve_repo_root extract_dir subdirs subpath exists_ =
          .error ("Path not found in repository: " ++ sp))) := by
  refine ⟨?_, ?_, ?_, ?_⟩
  · intro d hd
    rw [hd]
    rfl
  · intro hne
    cases subdirs with
    | nil => rfl
    | cons a as =>
      cases as with
      | nil => exact absurd rfl hne
      | cons b bs => rfl
  · intro hnone
    rw [hnone]
    rfl
  · intro sp hsp
    rw [hsp]
    constructor
    · intro hex
      unfold resolve_repo_root
      simp [hex]
    · intro hex
      unfold resolve_repo_root
      simp [hex]

/-- Witness for `resolve_repo_root_spec`: a single extracted top directory
becomes the root, and a missing subpath fails naming it. -/
theorem resolve_repo_root_spec_witness :
    resolve_repo_root [("extracted")] [[("repo-main")]] (some ("docs"))
      (fun _ => false) = .error ("Path not found in repository: docs") ∧
    effective_root [("extracted")] [[("repo-main")]] = [("repo-main")] := by
  constructor
  · exact ((resolve_repo_root_spec [("extracted")] [[("repo-main")]] (some ("docs"))
      (fun _ => false)).2.2.2 ("docs") rfl).2 rfl
  · exact (resolve_repo_root_spec [("extracted")] [[("repo-main")]] (some ("docs"))
      (fun _ => false)).1 [("repo-main")] rfl

/-- Claim C8, counterexample: at the spec's own rendering example but with
a requested top of `-1` — the CLI accepts any integer for `--top` — the
header announces `Топ -1` (`K = min(-1, 2) = -1`) while the listing section
contains one line, because Python's `per_file[:-1]` keeps all but the last
record; so the listing does not contain "exactly K lines". -/
theorem render_result_negative_top_cex :
    (render_result ("u") [(120, ("x.go")), (80, ("y.go"))] 200 (-1)).drop 5 =
      [fmtLine 120 ("x.go")] ∧
    min (-1 : Int) (([(120, ("x.go")), (80, ("y.go"))] :
      List (Nat × String)).length : Int) = -1 ∧
    (render_result ("u") [(120, ("x.go")), (80, ("y.go"))] 200 (-1))[4]? =
      some ("Топ -1 файлів:") := by
  refine ⟨rfl, by decide, rfl⟩

/-- Claim C8 as amended: for every nonnegative requested top-N, the
rendered report's listing section is exactly the first
`K = min(N, files.length)` records, each line showing the count
right-aligned to the fixed minimum width followed by the relative path,
so it has exactly K lines, and the header at index 4 announces Top K. -/
theorem render_result_spec (url : String) (per_file : List (Nat × String))
    (total : Nat) (top : Int) (h : 0 ≤ top) :
    (render_result url per_file total top).drop 5 =
      (per_file.take top.toNat).map (fun r => fmtLine r.1 r.2) ∧
    ((render_result url per_file total top).drop 5).length =
      min top.toNat per_file.length ∧
    (render_result url per_file total top).take 5 =
      [("Репозиторій: " ++ url),
       ("Файлів пораховано: " ++ toString per_file.length),
       ("Загалом non-empty рядків: " ++ toString total),
       (""),
       ("Топ " ++ toString (min top.toNat per_file.length) ++ (" файлів:"))] := by
  have hslice : pySliceTo top per_file = per_file.take top.toNat := by
    unfold pySliceTo
    rw [if_pos h]
  have hmin : min top ((per_file.length : Nat) : Int) =
      ((min top.toNat per_file.length : Nat) : Int) := by
    omega
  refine ⟨?_, ?_, ?_⟩
  · show (pySliceTo top per_file).map _ = _
    rw [hslice]
  · show ((pySliceTo top per_file).map _).length = _
    rw [hslice]
    simp [List.length_take]
  · have htos : toString (min top ((per_file.length : Nat) : Int)) =
        toString (min top.toNat per_file.length) := by
      rw [hmin]
      rfl
    show [("Репозиторій: " ++ url),
       ("Файлів пораховано: " ++ toString per_file.length),
       ("Загалом non-empty рядків: " ++ toString total),
       (""),
       ("Топ " ++ toString (min top ((per_file.length : Nat) : Int)) ++ (" файлів:"))] =
      [("Репозиторій: " ++ url),
       ("Файлів пораховано: " ++ toString per_file.length),
       ("Загалом non-empty рядків: " ++ toString total),
       (""),
       ("Топ " ++ toString (min top.toNat per_file.length) ++ (" файлів:"))]
    rw [htos]

/-- Witness for `render_result_spec` at the spec's rendering example:
`files = [(120, x.go), (80, y.go)]`, `top = 1` gives exactly the one line
for `x.go`. -/
theorem render_result_spec_witness :
    (0 : Int) ≤ 1 ∧
    (render_result ("u") [(120, ("x.go")), (80, ("y.go"))] 200 1).drop 5 =
      [fmtLine 120 ("x.go")] := by
  refine ⟨by decide, ?_⟩
  have h := (render_result_spec ("u") [(120, ("x.go")), (80, ("y.go"))] 200 1
    (by decide)).1
  rw [h]
  rfl

/-- Claim C9: pressing the Top-10 or Top-20 keyboard button (a text message
handled while no count is running) updates only the session's stored top
preference, to 10 or 20 respectively; the counting pipeline is not invoked
(the hand-off component is `none`) and the stored last URL is unchanged. -/
theorem top_buttons_update_preference_only (s : UserData) :
    handle_message s BTN_TOP_10 =
      ({ s with top := some 10 }, [("Встановлено: показувати Топ 10 файлів.")], none) ∧
    handle_message s BTN_TOP_20 =
      ({ s with top := some 20 }, [("Встановлено: показувати Топ 20 файлів.")], none) ∧
    ({ s with top := some 10 } : UserData).lastUrl = s.lastUrl ∧
    ({ s with top := some 20 } : UserData).lastUrl = s.lastUrl := by
  exact ⟨rfl, rfl, rfl, rfl⟩

theorem url_search_none_iff (cs : List Char) :
    url_search cs = none ↔ ∀ i, matchesUrlAt (cs.drop i) = false := by
  induction cs with
  | nil =>
    constructor
    · intro _ i
      rw [List.drop_nil]
      rfl
    · intro _
      rfl
  | cons c rest ih =>
    by_cases hm : matchesUrlAt (c :: rest) = true
    · have hstep : url_search (c :: rest) =
          some ((c :: rest).takeWhile (fun ch => !isPySpace ch)) := by
        unfold url_search
        rw [if_pos hm]
      rw [hstep]
      constructor
      · intro h
        exact Option.noConfusion h
      · intro hall
        have h0 : matchesUrlAt (c :: rest) = false := hall 0
        rw [h0] at hm
        exact Bool.noConfusion hm
    · have hstep : url_search (c :: rest) = url_search rest := by
        unfold url_search
        rw [if_neg hm]
        cases rest <;> rfl
      have hmf : matchesUrlAt (c :: rest) = false := by
        simpa using hm
      rw [hstep, ih]
      constructor
      · intro hall i
        cases i with
        | zero => exact hmf
        | succ k => exact hall k
      · intro hall i
        exact hall (i + 1)

theorem url_search_some_iff (cs : List Char) (u : List Char) :
    url_search cs = some u ↔
      ∃ i, matchesUrlAt (cs.drop i) = true ∧
        (∀ j, j < i → matchesUrlAt (cs.drop j) = false) ∧
        u = (cs.drop i).takeWhile (fun ch => !isPySpace ch) := by
  induction cs generalizing u with
  | nil =>
    constructor
    · intro h
      exact Option.noConfusion h
    · rintro ⟨i, hi, -, -⟩
      rw [List.drop_nil] at hi
      rw [show matchesUrlAt ([] : List Char) = false from rfl] at hi
      exact Bool.noConfusion hi
  | cons c rest ih =>
    by_cases hm : matchesUrlAt (c :: rest) = true
    · have hstep : url_search (c :: rest) =
          some ((c :: rest).takeWhile (fun ch => !isPySpace ch)) := by
        unfold url_search
        rw [if_pos hm]
      rw [hstep]
      constructor
      · intro h
        have hu := Option.some.inj h
        exact ⟨0, hm, fun j hj => absurd hj (Nat.not_lt_zero j), hu.symm⟩
      · rintro ⟨i, hi, hmin, hu⟩
        cases i with
        | zero =>
          rw [hu]
          rfl
        | succ k =>
          have h0 : matchesUrlAt (c :: rest) = false := hmin 0 (Nat.succ_pos k)
          rw [h0] at hm
          exact Bool.noConfusion hm
    · have hstep : url_search (c :: rest) = url_search rest := by
        unfold url_search
        rw [if_neg hm]
        cases rest <;> rfl
      have hmf : matchesUrlAt (c :: rest) = false := by
        simpa using hm
      rw [hstep, ih]
      constructor
      · rintro ⟨i, hi, hmin, hu⟩
        refine ⟨i + 1, hi, ?_, hu⟩
        intro j hj
        cases j with
        | zero => exact hmf
        | succ k => exact hmin k (by omega)
      · rintro ⟨i, hi, hmin, hu⟩
        cases i with
        | zero =>
          have hi0 : matchesUrlAt (c :: rest) = true := hi
          rw [hmf] at hi0
          exact Bool.noConfusion hi0
        | succ k =>
          refine ⟨k, hi, ?_, hu⟩
          intro j hj
          exact hmin (j + 1) (by omega)

/-- Claim C10, counterexample: the text `http://` is itself a maximal
whitespace-free substring that starts with `http://`, yet the extractor
returns `None`: the regex `https?://[^\s]+` demands at least one further
non-whitespace character after the scheme separator. -/
theorem extract_url_bare_scheme_cex :
    extract_url ("http://") = none ∧
    startsHttpCI ("http://").data = true ∧
    ("http://").data.takeWhile (fun ch => !isPySpace ch) = ("http://").data := by
  refine ⟨rfl, by decide, by decide⟩

/-- Claim C10 as amended: the extractor returns the first maximal
whitespace-free substring that starts with `http://` or `https://`
(case-insensitively) AND continues with at least one further
non-whitespace character — `matchesUrlAt` — and `None` exactly when no
position matches; any punctuation attached to the link is part of the
maximal non-whitespace run and is therefore included. -/
theorem extract_url_spec (text : String) :
    (∀ u, extract_url text = some u ↔
      ∃ i, matchesUrlAt (text.data.drop i) = true ∧
        (∀ j, j < i → matchesUrlAt (text.data.drop j) = false) ∧
        u = String.mk ((text.data.drop i).takeWhile (fun ch => !isPySpace ch))) ∧
    (extract_url text = none ↔ ∀ i, matchesUrlAt (text.data.drop i) = false) := by
  constructor
  · intro u
    unfold extract_url
    constructor
    · intro h
      rcases Option.map_eq_some'.mp h with ⟨l, hl, hlu⟩
      rcases (url_search_some_iff text.data l).mp hl with ⟨i, hi, hmin, hu⟩
      exact ⟨i, hi, hmin, by rw [← hlu, hu]⟩
    · rintro ⟨i, hi, hmin, hu⟩
      have hsearch : url_search text.data =
          some ((text.data.drop i).takeWhile (fun ch => !isPySpace ch)) :=
        (url_search_some_iff text.data _).mpr ⟨i, hi, hmin, rfl⟩
      rw [hsearch, hu]
      rfl
  · unfold extract_url
    constructor
    · intro h
      exact (url_search_none_iff text.data).mp (Option.map_eq_none'.mp h)
    · intro hall
      rw [(url_search_none_iff text.data).mpr hall]
      rfl

/-- Witness for `extract_url_spec`: the first match in
`see http://x.y, end` starts at index 4 and the attached comma is kept. -/
theorem extract_url_spec_witness :
    extract_url ("see http://x.y, end") = some ("http://x.y,") := by
  exact ((extract_url_spec ("see http://x.y, end")).1 ("http://x.y,")).mpr
    ⟨4, by decide, by decide, by decide⟩

end LOCBot
